import Mathlib

/-!
Shallow embedding of `cirq_superstaq/custom_gates.py`.

Conventions of the embedding:

* Angles are represented in *half-turn units* (the value divided by π).  This
  is exactly what the Python objects store for `Rphi`/`ParallelRphi`
  (`phase_exponent = phi / np.pi`, `exponent = theta / np.pi`), and for the
  other gates it removes the transcendental constant π from the stored data,
  so that cirq's canonicalization formulas become exact arithmetic over any
  linear ordered field with a floor function.  Constructors that take radian
  arguments in Python (`FermionicSWAPGate.__init__`, `Rphi.__init__`) receive
  π explicitly as a parameter `pi` and divide by it, mirroring the source's
  division by `np.pi`.
* Scalar parameters (Python floats) are modelled by an arbitrary
  `LinearOrderedField` with `FloorRing` (instantiated at ℚ for executable
  witnesses and at ℝ for statements that mention π).
* A Python method returning `NotImplemented` or raising is modelled by an
  `Option` result with `none` for the failure outcome.
* Symbolic (sympy) parameters are outside the scope of the claims verified
  here: every scalar is concrete.
-/

set_option linter.unusedSectionVars false
set_option linter.unusedVariables false
set_option linter.unnecessarySeqFocus false

namespace CirqSuperstaq

/-- Polarity of an `AceCR` gate: the Python code asserts
`polarity in ["+-", "-+"]`, so the polarity is one of exactly two values. -/
inductive Polarity where
  | pm
  | mp
deriving DecidableEq, Repr

/-- The closed data model of gate values handled by `custom_gates.py`.
Constructors store exactly the fields the corresponding Python objects store
(angle-valued fields in half-turn units, see the file header):

* `fermionicSWAP theta`: `FermionicSWAPGate`, `self.theta` (stored here as
  θ/π; the Python constructor canonicalizes).
* `zxPow exponent globalShift`: `ZXPowGate`, an `EigenGate` storing
  `self._exponent` and `self._global_shift`.
* `xPow exponent globalShift`: `cirq.XPowGate` (`cirq.X` is `xPow 1 0`),
  needed as the bit flip appearing in `AceCR._decompose_`.
* `aceCR polarity`: `AceCR`, `self.polarity`.
* `barrier numQubits`: `Barrier`, a `cirq.IdentityGate` storing its qubit
  count.
* `msGate rads`: `MSGate`, `self.rads`.
* `rphi phaseExponent exponent`: `Rphi`, a `cirq.PhasedXPowGate` storing
  `self._phase_exponent` and `self._exponent` (`global_shift` is always
  `-0.5` and is not stored).
* `parallelRphi phaseExponent exponent numCopies`: `ParallelRphi`, a
  `cirq.ParallelGate` of `numCopies` copies of the `Rphi` sub-gate.
* `measure numQubits`: a `cirq.MeasurementGate`, the one gate kind for which
  `cirq.is_measurement` is true; needed by the `ParallelGates` constructor
  check.
* `parallelGates componentGates`: `ParallelGates`, `self.component_gates`. -/
inductive Gate (R : Type) where
  | fermionicSWAP (theta : R)
  | zxPow (exponent globalShift : R)
  | xPow (exponent globalShift : R)
  | aceCR (polarity : Polarity)
  | barrier (numQubits : ℕ)
  | msGate (rads : R)
  | rphi (phaseExponent exponent : R)
  | parallelRphi (phaseExponent exponent : R) (numCopies : ℕ)
  | measure (numQubits : ℕ)
  | parallelGates (componentGates : List (Gate R))

variable {R : Type} [LinearOrderedField R] [FloorRing R] [DecidableEq R]

mutual

/-- `num_qubits()` of a gate value: 2 for the two-qubit primitives, the
stored count for `Barrier`/`MeasurementGate`, the copy count for
`ParallelRphi`, and the sum of the component counts for `ParallelGates`
(`ParallelGates._num_qubits_`). -/
def Gate.numQubits : Gate R → ℕ
  | .fermionicSWAP _ => 2
  | .zxPow _ _ => 2
  | .xPow _ _ => 1
  | .aceCR _ => 2
  | .barrier n => n
  | .msGate _ => 2
  | .rphi _ _ => 1
  | .parallelRphi _ _ k => k
  | .measure n => n
  | .parallelGates gs => numQubitsList gs

/-- `sum(map(cirq.num_qubits, gates))`. -/
def numQubitsList : List (Gate R) → ℕ
  | [] => 0
  | g :: gs => g.numQubits + numQubitsList gs

end

mutual

/-- Value equality of gate values (Python `==`).  Every class in
`custom_gates.py` compares by its class together with the stored fields
listed in `Gate`: the `@cirq.value_equality` classes via their
`_value_equality_values_`, `AceCR` via its explicit `__eq__` on `polarity`,
`Barrier` via `IdentityGate`'s value equality on the qubit count.  On the
canonicalized representatives produced by the constructors below this is
field-by-field equality, which is what this function implements. -/
def Gate.beq : Gate R → Gate R → Bool
  | .fermionicSWAP t, .fermionicSWAP u => decide (t = u)
  | .zxPow e s, .zxPow f t => decide (e = f) && decide (s = t)
  | .xPow e s, .xPow f t => decide (e = f) && decide (s = t)
  | .aceCR p, .aceCR q => decide (p = q)
  | .barrier n, .barrier m => decide (n = m)
  | .msGate r, .msGate s => decide (r = s)
  | .rphi p e, .rphi q f => decide (p = q) && decide (e = f)
  | .parallelRphi p e k, .parallelRphi q f l =>
      decide (p = q) && decide (e = f) && decide (k = l)
  | .measure n, .measure m => decide (n = m)
  | .parallelGates gs, .parallelGates hs => beqList gs hs
  | _, _ => false

/-- Component-wise equality of gate lists (Python tuple equality). -/
def beqList : List (Gate R) → List (Gate R) → Bool
  | [], [] => true
  | g :: gs, h :: hs => Gate.beq g h && beqList gs hs
  | _, _ => false

end

/-- `Gate.beq` and `beqList` are sound and complete for propositional
equality (fuel-indexed statement used for the structural induction through
the nested inductive). -/
theorem beq_iff_eq_aux : ∀ n : ℕ,
    (∀ g h : Gate R, sizeOf g ≤ n → (Gate.beq g h = true ↔ g = h)) ∧
    (∀ gs hs : List (Gate R), sizeOf gs ≤ n → (beqList gs hs = true ↔ gs = hs)) := by
  intro n
  induction n with
  | zero =>
    constructor
    · intro g h hg
      exfalso
      cases g <;> simp_arith at hg
    · intro gs hs hgs
      exfalso
      cases gs <;> simp_arith at hgs
  | succ n ih =>
    constructor
    · intro g h hg
      cases g <;> cases h <;> simp [Gate.beq, and_assoc]
      case parallelGates.parallelGates gs hs =>
        have hsz : sizeOf gs ≤ n := by simp_arith at hg; omega
        exact ih.2 gs hs hsz
    · intro gs hs hgs
      cases gs with
      | nil => cases hs <;> simp [beqList]
      | cons g gs =>
        cases hs with
        | nil => simp [beqList]
        | cons h hs =>
          have hg : sizeOf g ≤ n := by simp_arith at hgs; omega
          have hgs2 : sizeOf gs ≤ n := by simp_arith at hgs; omega
          simp [beqList, ih.1 g h hg, ih.2 gs hs hgs2]

/-- `Gate.beq` decides propositional equality of gate values. -/
theorem Gate.beq_iff_eq (g h : Gate R) : Gate.beq g h = true ↔ g = h :=
  (beq_iff_eq_aux (sizeOf g)).1 g h le_rfl

/-- `beqList` decides propositional equality of gate lists. -/
theorem beqList_iff_eq (gs hs : List (Gate R)) : beqList gs hs = true ↔ gs = hs :=
  (beq_iff_eq_aux (sizeOf gs)).2 gs hs le_rfl

/-! ## Angle canonicalization

`FermionicSWAPGate.__init__` stores
`cirq.ops.fsim_gate._canonicalize(theta)`, where cirq's `_canonicalize`
computes `value - 2π * floor((value + π) / (2π))` (the representative of
`value` modulo 2π lying in `[-π, π)`, "between -pi and +pi" in the source's
words).  In half-turn units (dividing through by π) this becomes
`t - 2 * ⌊(t + 1) / 2⌋`, the representative in `[-1, 1)` modulo 2. -/
def canonicalizeFsim (t : R) : R := t - 2 * (⌊(t + 1) / 2⌋ : ℤ)

/-- `cirq.value.canonicalize_half_turns`: `half_turns %= 2`, then
`if half_turns > 1: half_turns -= 2`, the representative of `half_turns`
modulo 2 lying in `(-1, 1]`.  Python's float `x % 2` is `x - 2*⌊x/2⌋`. -/
def canonicalizeHalfTurns (t : R) : R :=
  letI r : R := t - 2 * (⌊t / 2⌋ : ℤ)
  if 1 < r then r - 2 else r

/-! ## Constructors

`pi` stands for the float constant `np.pi` by which the Python constructors
divide (resp. whose multiples the canonicalization removes); the theorems
using radians instantiate it with `Real.pi`. -/

/-- `FermionicSWAPGate.__init__(theta)`: stores the canonicalized
ZZ-interaction angle (kept here in half-turn units `theta / pi`). -/
def FermionicSWAPGate (pi theta : R) : Gate R :=
  .fermionicSWAP (canonicalizeFsim (theta / pi))

/-- `cirq.PhasedXPowGate.__init__` at the stored-field level: stores
`value.canonicalize_half_turns(phase_exponent)` and the raw `exponent`
(`Rphi` always passes `global_shift=-0.5`, which is therefore not a field
of the model). -/
def phasedXPow (phaseExponent exponent : R) : Gate R :=
  .rphi (canonicalizeHalfTurns phaseExponent) exponent

/-- `Rphi.__init__(phi, theta)`: calls `PhasedXPowGate.__init__` with
`phase_exponent=phi/np.pi`, `exponent=theta/np.pi`, `global_shift=-0.5`. -/
def Rphi (pi phi theta : R) : Gate R :=
  phasedXPow (phi / pi) (theta / pi)

/-- `cirq.ParallelGate.__init__(Rphi(...), num_copies)` at the stored-field
level: raises `ValueError` unless the gate is applied at least once
(modelled by `none`). -/
def mkParallelRphi (phaseExponent exponent : R) (numCopies : ℕ) : Option (Gate R) :=
  if numCopies = 0 then none
  else some (.parallelRphi (canonicalizeHalfTurns phaseExponent) exponent numCopies)

/-- `ParallelRphi.__init__(phi, theta, num_copies)`: a `cirq.ParallelGate`
of `num_copies` copies of `Rphi(phi, theta)`. -/
def ParallelRphi (pi phi theta : R) (numCopies : ℕ) : Option (Gate R) :=
  mkParallelRphi (phi / pi) (theta / pi) numCopies

/-- `MSGate.__init__(rads=...)`: stores `self.rads` (half-turn units). -/
def MSGate (pi rads : R) : Gate R := .msGate (rads / pi)

/-- `AceCR.__init__(polarity)`: the `assert polarity in ["+-", "-+"]` is
discharged by the `Polarity` type having exactly those two values. -/
def AceCR (polarity : Polarity) : Gate R := .aceCR polarity

/-- `Barrier(n)`: a `cirq.IdentityGate` on `n` qubits. -/
def Barrier (n : ℕ) : Gate R := .barrier n

/-- `cirq.is_measurement`: among the gate kinds of this model it holds
exactly for `cirq.MeasurementGate`. -/
def Gate.isMeasurement : Gate R → Bool
  | .measure _ => true
  | _ => false

/-- `ParallelGates.__init__(*component_gates)`: raises `ValueError`
("ParallelGates cannot contain measurements", modelled by `none`) when any
component is a measurement; otherwise stores the component sequence
unchanged. -/
def ParallelGates (componentGates : List (Gate R)) : Option (Gate R) :=
  if componentGates.any Gate.isMeasurement then none
  else some (.parallelGates componentGates)

/-! ## Qubit-equivalence groups of `ParallelGates` -/

/-- Whether the gate's Python class subclasses
`cirq.InterchangeableQubitsGate`:
`FermionicSWAPGate(cirq.Gate, cirq.ops.gate_features.InterchangeableQubitsGate)`,
`MSGate` (an `XXPowGate`, which is interchangeable),
`ParallelRphi(cirq.ParallelGate, cirq.InterchangeableQubitsGate)` and
`ParallelGates(cirq.Gate, cirq.InterchangeableQubitsGate)`.  `ZXPowGate`,
`AceCR`, `Barrier` (an `IdentityGate`), `XPowGate`, `PhasedXPowGate` and
`MeasurementGate` are not. -/
def Gate.interchangeable : Gate R → Bool
  | .fermionicSWAP _ => true
  | .msGate _ => true
  | .parallelRphi _ _ _ => true
  | .parallelGates _ => true
  | _ => false

/-- `ParallelGates.qubit_index_to_gate_and_index(index)`: scan the
components in order, returning the owning component and the local index
within it; `none` models the `ValueError("index out of range")`.  (The
Python guard is `gate.num_qubits() > index >= 0`; the lower bound is
automatic for `ℕ`.) -/
def qubitIndexToGateAndIndex : List (Gate R) → ℕ → Option (Gate R × ℕ)
  | [], _ => none
  | g :: gs, index =>
      if index < g.numQubits then some (g, index)
      else qubitIndexToGateAndIndex gs (index - g.numQubits)

omit [LinearOrderedField R] [FloorRing R] [DecidableEq R] in
/-- The owning component returned by the scan is one of the components. -/
theorem mem_of_qubitIndexToGateAndIndex :
    ∀ {gs : List (Gate R)} {i : ℕ} {g : Gate R} {j : ℕ},
      qubitIndexToGateAndIndex gs i = some (g, j) → g ∈ gs := by
  intro gs
  induction gs with
  | nil => intro i g j h; simp [qubitIndexToGateAndIndex] at h
  | cons a gs ih =>
    intro i g j h
    by_cases hc : i < a.numQubits
    · simp [qubitIndexToGateAndIndex, hc] at h
      exact h.1 ▸ List.mem_cons_self a gs
    · simp [qubitIndexToGateAndIndex, hc] at h
      exact List.mem_cons_of_mem a (ih h)

mutual

/-- `ParallelGates.qubit_index_to_equivalence_group_key(index)`:

* locate the owning component and local index (propagating the
  out-of-range error);
* if the owning component is single-qubit, return
  `sum(map(cirq.num_qubits, self.component_gates[:first_instance]))` where
  `first_instance = self.component_gates.index(indexed_gate)` is the first
  component equal (`==`) to the owner;
* else if the owner is an `InterchangeableQubitsGate`, ask it for the local
  key of the local index, scan smaller local indices for the first one with
  the same local key (`for i in range(index_in_gate)`), and return
  `index - index_in_gate + i` on a hit;
* otherwise return `index` itself.

An error raised by the owner's own key function inside the scan would
propagate in Python; that can only happen for an out-of-range local index,
which the scan (over indices below a valid one) never produces, so the
`find?` encoding is exact on reachable inputs. -/
def pgKey (gs : List (Gate R)) (index : ℕ) : Option ℕ :=
  match h : qubitIndexToGateAndIndex gs index with
  | none => none
  | some (indexedGate, indexInGate) =>
    if indexedGate.numQubits = 1 then
      some (numQubitsList (gs.take (gs.findIdx (fun g => Gate.beq g indexedGate))))
    else if indexedGate.interchangeable then
      match innerKey indexedGate indexInGate with
      | none => none
      | some gateKey =>
        match (List.range indexInGate).find?
            (fun i => decide (innerKey indexedGate i = some gateKey)) with
        | some i => some (index - indexInGate + i)
        | none => some index
    else
      some index
termination_by (sizeOf gs, 1)
decreasing_by
  all_goals
    exact Prod.Lex.left _ _ (List.sizeOf_lt_of_mem (mem_of_qubitIndexToGateAndIndex h))

/-- Dynamic dispatch of `indexed_gate.qubit_index_to_equivalence_group_key`
on a component: `ParallelGates` recurses into `pgKey`; every other
interchangeable class inherits the default
`cirq.InterchangeableQubitsGate.qubit_index_to_equivalence_group_key`,
which returns `0` for every index (all qubits interchangeable). -/
def innerKey : Gate R → ℕ → Option ℕ
  | .parallelGates gs, index => pgKey gs index
  | _, _ => some 0
termination_by g _ => (sizeOf g, 0)
decreasing_by
  exact Prod.Lex.left _ _ (by simp_arith)

end

/-! ## Exponentiation (`__pow__`) -/

mutual

/-- `__pow__` of each gate class (`none` models `NotImplemented` or a
raised error):

* `FermionicSWAPGate.__pow__`: `FermionicSWAPGate(exponent * self.theta)`
  for exponents in `(-1, 0, 1)`, else `NotImplemented`;
* `ZXPowGate`/`XPowGate` (`cirq.EigenGate.__pow__`): multiply the exponent,
  keep the global shift;
* `AceCR` and `MeasurementGate` have no `__pow__`; `cirq.Gate`'s default
  returns `self` for power 1 (for power −1 it builds a generic
  `_InverseCompositeGate` wrapper, resp. fails for the measurement — the
  wrapper class lies outside this model and is modelled as unsupported);
* `Barrier` (`cirq.IdentityGate.__pow__`): returns `self` for any numeric
  power;
* `MSGate`: claims do not exercise it; only the trivial power is modelled;
* `Rphi.__pow__`: `Rphi(self.phi, power * self.theta)`;
* `ParallelRphi.__pow__`: `ParallelRphi(self.phi, power * self.theta,
  self.num_copies)`;
* `ParallelGates.__pow__`: exponentiation of each component in order, then
  `ParallelGates(*exponentiated_gates)` (re-running the constructor
  check). -/
def Gate.pow : Gate R → R → Option (Gate R)
  | .fermionicSWAP t, e =>
      if e = -1 ∨ e = 0 ∨ e = 1 then some (.fermionicSWAP (canonicalizeFsim (e * t)))
      else none
  | .zxPow ex s, e => some (.zxPow (ex * e) s)
  | .xPow ex s, e => some (.xPow (ex * e) s)
  | .aceCR p, e => if e = 1 then some (.aceCR p) else none
  | .barrier n, _ => some (.barrier n)
  | .msGate r, e => if e = 1 then some (.msGate r) else none
  | .rphi ph ex, e => some (phasedXPow ph (e * ex))
  | .parallelRphi ph ex k, e => mkParallelRphi ph (e * ex) k
  | .measure n, e => if e = 1 then some (.measure n) else none
  | .parallelGates gs, e =>
      match powList gs e with
      | none => none
      | some hs => ParallelGates hs

/-- `[gate ** exponent for gate in self.component_gates]`, propagating the
first failure. -/
def powList : List (Gate R) → R → Option (List (Gate R))
  | [], _ => some []
  | g :: gs, e =>
      match Gate.pow g e, powList gs e with
      | some h, some hs => some (h :: hs)
      | _, _ => none

end

/-! ## Decomposition -/

variable {Q : Type}

/-- A gate application `gate(*qubits)` produced by a `_decompose_`
generator. -/
structure GateOperation (R : Type) (Q : Type) where
  gate : Gate R
  qubits : List Q

/-- `AceCR._decompose_(qubits)`: `cirq_superstaq.CR` is `ZXPowGate()`
(exponent 1, shift 0), so `CR(*qubits) ** ±0.25` is the `ZXPowGate` with
exponent `±0.25` on the pair, and `cirq.X` is `XPowGate()` (exponent 1).
Polarity `"+-"` yields exponents `+0.25`, then the bit flip on `qubits[0]`,
then `-0.25`; polarity `"-+"` swaps the two exponent signs.  The generator
always yields exactly these three operations (`some`, never a refusal). -/
def aceCRDecompose (polarity : Polarity) (q0 q1 : Q) :
    Option (List (GateOperation R Q)) :=
  some
    [⟨.zxPow (if polarity = .pm then (1 : R) / 4 else -(1 / 4)) 0, [q0, q1]⟩,
     ⟨.xPow 1 0, [q0]⟩,
     ⟨.zxPow (if polarity = .pm then -((1 : R) / 4) else 1 / 4) 0, [q0, q1]⟩]

/-- `Barrier._decompose_(qubits)`: `return NotImplemented` — the explicit
"no decomposition available" sentinel (`none`), for every qubit count and
every qubit register; distinct from an empty decomposition `some []`. -/
def barrierDecompose (n : ℕ) (qubits : List Q) :
    Option (List (GateOperation R Q)) :=
  none

/-! ## Serialization and the type registry

`_json_dict_` (via `cirq.protocols.obj_to_dict_helper`) exports, for each
variant, a dictionary of the listed fields plus the `cirq_type` tag equal to
the class name; `custom_resolver` maps a tag back to the constructor.  The
Python dictionaries hold radian values where the constructor takes radians
(`FermionicSWAPGate`: `theta = stored·π`; `Rphi`/`ParallelRphi`:
`phi = phase_exponent·π`, `theta = exponent·π`), and reconstruction divides
by π again, so the π factors cancel; the model therefore keeps the
half-turn values in the export. -/

/-- Structured export of a gate value, one case per serializable variant:

* `FermionicSWAPGate._json_dict_`: fields `["theta"]`;
* `ZXPowGate` (`cirq.EigenGate`): fields `["exponent", "global_shift"]`;
* `AceCR._json_dict_`: fields `["polarity"]`;
* `Barrier` (`cirq.IdentityGate`): field `["num_qubits"]`;
* `MSGate._json_dict_`: fields `["rads"]`;
* `Rphi._json_dict_`: fields `["phi", "theta"]`;
* `ParallelRphi._json_dict_`: fields `["phi", "theta", "num_copies"]`;
* `ParallelGates._json_dict_`: field `["component_gates"]`, recursively
  exported. -/
inductive GateJson (R : Type) where
  | fermionicSWAP (theta : R)
  | zxPow (exponent globalShift : R)
  | aceCR (polarity : Polarity)
  | barrier (numQubits : ℕ)
  | msGate (rads : R)
  | rphi (phi theta : R)
  | parallelRphi (phi theta : R) (numCopies : ℕ)
  | parallelGates (componentGates : List (GateJson R))

/-- The `cirq_type` tag of an export (the Python class name). -/
def GateJson.cirqType : GateJson R → String
  | .fermionicSWAP _ => "FermionicSWAPGate"
  | .zxPow _ _ => "ZXPowGate"
  | .aceCR _ => "AceCR"
  | .barrier _ => "Barrier"
  | .msGate _ => "MSGate"
  | .rphi _ _ => "Rphi"
  | .parallelRphi _ _ _ => "ParallelRphi"
  | .parallelGates _ => "ParallelGates"

mutual

/-- `_json_dict_` of a gate value.  `XPowGate` and `MeasurementGate` are
serialized by cirq's own registry, not by this module, hence `none`. -/
def Gate.jsonDict : Gate R → Option (GateJson R)
  | .fermionicSWAP t => some (.fermionicSWAP t)
  | .zxPow e s => some (.zxPow e s)
  | .xPow _ _ => none
  | .aceCR p => some (.aceCR p)
  | .barrier n => some (.barrier n)
  | .msGate r => some (.msGate r)
  | .rphi ph ex => some (.rphi ph ex)
  | .parallelRphi ph ex k => some (.parallelRphi ph ex k)
  | .measure _ => none
  | .parallelGates gs =>
      match jsonDictList gs with
      | none => none
      | some js => some (.parallelGates js)

/-- Export of a component list (`ParallelGates._json_dict_`). -/
def jsonDictList : List (Gate R) → Option (List (GateJson R))
  | [] => some []
  | g :: gs =>
      match g.jsonDict, jsonDictList gs with
      | some j, some js => some (j :: js)
      | _, _ => none

end

mutual

/-- Reconstruction of a gate value from its export: nested objects are
deserialized bottom-up by cirq's JSON framework and the variant's
constructor (or `_from_json_dict_`) is applied to the fields, re-running
each constructor's checks. -/
def reconstruct : GateJson R → Option (Gate R)
  | .fermionicSWAP t => some (.fermionicSWAP (canonicalizeFsim t))
  | .zxPow e s => some (.zxPow e s)
  | .aceCR p => some (AceCR p)
  | .barrier n => some (Barrier n)
  | .msGate r => some (.msGate r)
  | .rphi ph ex => some (phasedXPow ph ex)
  | .parallelRphi ph ex k => mkParallelRphi ph ex k
  | .parallelGates js =>
      match reconstructList js with
      | none => none
      | some gs => ParallelGates gs

/-- Reconstruction of an exported component list. -/
def reconstructList : List (GateJson R) → Option (List (Gate R))
  | [] => some []
  | j :: js =>
      match reconstruct j, reconstructList js with
      | some g, some gs => some (g :: gs)
      | _, _ => none

end

/-- `custom_resolver(cirq_type)`: maps a type tag to the reconstruction
function for that variant (which rejects a payload of any other variant),
and returns `None` for unrecognized tags.  The branches appear in the order
of the source. -/
def custom_resolver (cirq_type : String) :
    Option (GateJson R → Option (Gate R)) :=
  if cirq_type = "FermionicSWAPGate" then
    some fun j => match j with
      | .fermionicSWAP t => some (.fermionicSWAP (canonicalizeFsim t))
      | _ => none
  else if cirq_type = "Barrier" then
    some fun j => match j with
      | .barrier n => some (Barrier n)
      | _ => none
  else if cirq_type = "ZXPowGate" then
    some fun j => match j with
      | .zxPow e s => some (.zxPow e s)
      | _ => none
  else if cirq_type = "AceCR" then
    some fun j => match j with
      | .aceCR p => some (AceCR p)
      | _ => none
  else if cirq_type = "ParallelGates" then
    some fun j => match j with
      | .parallelGates js =>
          (match reconstructList js with
           | none => none
           | some gs => ParallelGates gs)
      | _ => none
  else if cirq_type = "MSGate" then
    some fun j => match j with
      | .msGate r => some (.msGate r)
      | _ => none
  else if cirq_type = "Rphi" then
    some fun j => match j with
      | .rphi ph ex => some (phasedXPow ph ex)
      | _ => none
  else if cirq_type = "ParallelRphi" then
    some fun j => match j with
      | .parallelRphi ph ex k => mkParallelRphi ph ex k
      | _ => none
  else
    none

mutual

/-- The values of the seven data-model variants of the round-trip claim
(`FermionicSwap`, `ZXPower`, `AceCR`, `Barrier`, `Rphi`, `ParallelRphi`,
`ParallelGates`) that are producible by the constructors: angle fields are
canonicalized, `ParallelRphi` has a positive copy count, and the components
of a `ParallelGates` are themselves such values (hence contain no
measurement). -/
def Gate.Canonical : Gate R → Prop
  | .fermionicSWAP t => canonicalizeFsim t = t
  | .zxPow _ _ => True
  | .xPow _ _ => False
  | .aceCR _ => True
  | .barrier _ => True
  | .msGate _ => False
  | .rphi ph _ => canonicalizeHalfTurns ph = ph
  | .parallelRphi ph _ k => canonicalizeHalfTurns ph = ph ∧ k ≠ 0
  | .measure _ => False
  | .parallelGates gs => CanonicalList gs

/-- All members of a component list are canonical values. -/
def CanonicalList : List (Gate R) → Prop
  | [] => True
  | g :: gs => Gate.Canonical g ∧ CanonicalList gs

end

/-! ## The unitary of `FermionicSWAPGate` -/

/-- The matrix returned by `FermionicSWAPGate._unitary_` as a function of
the entry `u = np.exp(1j * self.theta)`:
`[[1,0,0,0],[0,0,u,0],[0,u,0,0],[0,0,0,1]]`. -/
def fermionicSWAPUnitary (u : ℂ) : Matrix (Fin 4) (Fin 4) ℂ :=
  !![1, 0, 0, 0;
     0, 0, u, 0;
     0, u, 0, 0;
     0, 0, 0, 1]

/-- The permutation matrix of SWAP on the two-qubit basis
`|00⟩,|01⟩,|10⟩,|11⟩` (the `theta = 0` case of the Fermionic SWAP). -/
def swapMatrix : Matrix (Fin 4) (Fin 4) ℂ :=
  !![1, 0, 0, 0;
     0, 0, 1, 0;
     0, 1, 0, 0;
     0, 0, 0, 1]

/-- The stored `theta` field of a `FermionicSWAPGate` (half-turn units;
`self.theta` in radians is this value times π), `0` on other variants. -/
def Gate.thetaHT : Gate R → R
  | .fermionicSWAP t => t
  | _ => 0

/-! ## Properties of the canonicalization maps -/

/-- `canonicalizeFsim` is the reduction to the fundamental domain `[-1, 1)`
modulo 2, i.e. Mathlib's `toIcoMod`. -/
theorem canonicalizeFsim_eq_toIcoMod (t : R) :
    canonicalizeFsim t = toIcoMod (two_pos : (0 : R) < 2) (-1) t := by
  rw [toIcoMod, toIcoDiv_eq_floor, canonicalizeFsim, zsmul_eq_mul, sub_neg_eq_add]
  ring

/-- Canonicalizing an already-canonicalized angle changes nothing. -/
theorem canonicalizeFsim_canonicalizeFsim (t : R) :
    canonicalizeFsim (canonicalizeFsim t) = canonicalizeFsim t := by
  simp only [canonicalizeFsim_eq_toIcoMod]
  exact toIcoMod_toIcoMod _ _ _ _

/-- Canonicalization commutes with negation up to re-canonicalizing. -/
theorem canonicalizeFsim_neg_canonicalizeFsim (t : R) :
    canonicalizeFsim (-canonicalizeFsim t) = canonicalizeFsim (-t) := by
  simp only [canonicalizeFsim_eq_toIcoMod]
  have h : -toIcoMod (two_pos : (0 : R) < 2) (-1) t =
      -t + toIcoDiv (two_pos : (0 : R) < 2) (-1) t • (2 : R) := by
    rw [toIcoMod]; abel
  rw [h, toIcoMod_add_zsmul]

/-- For the supported exponents, scaling before or after canonicalization
gives the same canonical angle. -/
theorem canonicalizeFsim_mul_cases (s e : R) (he : e = -1 ∨ e = 0 ∨ e = 1) :
    canonicalizeFsim (e * canonicalizeFsim s) = canonicalizeFsim (e * s) := by
  rcases he with rfl | rfl | rfl
  · simpa only [neg_one_mul] using canonicalizeFsim_neg_canonicalizeFsim s
  · simp
  · simpa only [one_mul] using canonicalizeFsim_canonicalizeFsim s

/-- The canonicalized angle differs from the original by an integer number
of full turns (of `2` half-turn units). -/
theorem canonicalizeFsim_sub_self (t : R) :
    ∃ k : ℤ, canonicalizeFsim t = t - k • (2 : R) :=
  ⟨⌊(t + 1) / 2⌋, by rw [canonicalizeFsim, zsmul_eq_mul]; ring⟩

/-! ## Claim theorems -/

/-- Claim C2: for every angle `theta` and every exponent `e`, exponentiating
`FermionicSWAPGate(theta)` with `e ∈ {-1, 0, 1}` returns
`FermionicSWAPGate(e * theta)` (the gate's value equality: equal stored
angle after canonicalization into the fundamental domain), and for every
other exponent it signals the unsupported-exponent outcome
(`NotImplemented`, modelled by `none`) instead of returning a gate. -/
theorem fermionicSWAP_pow_spec (pi theta e : R) :
    ((e = -1 ∨ e = 0 ∨ e = 1) →
      (FermionicSWAPGate pi theta).pow e = some (FermionicSWAPGate pi (e * theta))) ∧
    (¬(e = -1 ∨ e = 0 ∨ e = 1) → (FermionicSWAPGate pi theta).pow e = none) := by
  constructor
  · intro he
    simp only [FermionicSWAPGate, Gate.pow, if_pos he]
    rw [mul_div_assoc, canonicalizeFsim_mul_cases _ _ he]
  · intro he
    simp only [FermionicSWAPGate, Gate.pow, if_neg he]

/-- Witness for C2 over ℚ: exponent `-1` is supported and yields the
negated angle, exponent `2` is rejected. -/
theorem fermionicSWAP_pow_spec_witness :
    (((-1 : ℚ) = -1 ∨ (-1 : ℚ) = 0 ∨ (-1 : ℚ) = 1) ∧
      (FermionicSWAPGate (314 / 100 : ℚ) 1).pow (-1) =
        some (FermionicSWAPGate (314 / 100 : ℚ) (-1 * 1))) ∧
    (¬((2 : ℚ) = -1 ∨ (2 : ℚ) = 0 ∨ (2 : ℚ) = 1) ∧
      (FermionicSWAPGate (314 / 100 : ℚ) 1).pow 2 = none) :=
  ⟨⟨by norm_num, (fermionicSWAP_pow_spec (314 / 100 : ℚ) 1 (-1)).1 (by norm_num)⟩,
   ⟨by norm_num, (fermionicSWAP_pow_spec (314 / 100 : ℚ) 1 2).2 (by norm_num)⟩⟩

/-- Claim C4: for every pair of qubits, `AceCR("+-")` decomposes into
exactly the three operations `ZXPowGate(exponent=+0.25)` on `(q0, q1)`, the
bit flip `X` on `q0`, then `ZXPowGate(exponent=-0.25)` on `(q0, q1)`, in
this order; `AceCR("-+")` yields the same sequence with the two `ZXPowGate`
exponent signs swapped. -/
theorem aceCR_decompose_spec (q0 q1 : Q) :
    aceCRDecompose (R := R) Polarity.pm q0 q1 =
      some [⟨.zxPow (1 / 4) 0, [q0, q1]⟩, ⟨.xPow 1 0, [q0]⟩,
            ⟨.zxPow (-(1 / 4)) 0, [q0, q1]⟩] ∧
    aceCRDecompose (R := R) Polarity.mp q0 q1 =
      some [⟨.zxPow (-(1 / 4)) 0, [q0, q1]⟩, ⟨.xPow 1 0, [q0]⟩,
            ⟨.zxPow (1 / 4) 0, [q0, q1]⟩] := by
  constructor <;> simp [aceCRDecompose]

/-- Claim C5: for every `n ≥ 1` and every qubit register, the decomposition
of `Barrier(n)` is the explicit no-decomposition sentinel (`NotImplemented`,
modelled `none`), which is distinguishable from the empty decomposition
`some []`. -/
theorem barrier_decompose_spec (n : ℕ) (hn : 1 ≤ n) (qubits : List Q) :
    barrierDecompose (R := R) n qubits = none ∧
      barrierDecompose (R := R) n qubits ≠ some [] :=
  ⟨rfl, by simp [barrierDecompose]⟩

/-- Witness for C5: `Barrier(3)` on the register `[0, 1, 2]`. -/
theorem barrier_decompose_spec_witness :
    1 ≤ 3 ∧ (barrierDecompose (R := ℚ) (Q := ℕ) 3 [0, 1, 2] = none ∧
      barrierDecompose (R := ℚ) (Q := ℕ) 3 [0, 1, 2] ≠ some []) :=
  ⟨by norm_num, barrier_decompose_spec 3 (by norm_num) [0, 1, 2]⟩

/-- Claim C6: `ParallelGates` construction fails (with the construction
error, modelled `none`, producing no gate value) iff at least one component
is a measurement; when no component is a measurement it succeeds and stores
the components unchanged in order. -/
theorem parallelGates_init_spec (gs : List (Gate R)) :
    (ParallelGates gs = none ↔ ∃ g ∈ gs, g.isMeasurement = true) ∧
    ((∀ g ∈ gs, g.isMeasurement = false) →
      ParallelGates gs = some (.parallelGates gs)) := by
  refine ⟨⟨fun h => ?_, fun h => ?_⟩, fun h => ?_⟩
  · by_cases hc : gs.any Gate.isMeasurement
    · simpa [List.any_eq_true] using hc
    · simp [ParallelGates, hc] at h
  · have hc : gs.any Gate.isMeasurement := List.any_eq_true.mpr h
    simp [ParallelGates, hc]
  · have hc : ¬gs.any Gate.isMeasurement = true := by
      simp only [List.any_eq_true, not_exists]
      intro g
      simp only [not_and]
      intro hg
      simp [h g hg]
    simp [ParallelGates, hc]

/-- Witness for C6 over ℚ: a measurement among two `Rphi` components makes
construction fail; two `Rphi` components alone are accepted and stored
unchanged. -/
theorem parallelGates_init_spec_witness :
    ParallelGates (R := ℚ) [phasedXPow 0 1, .measure 1, phasedXPow 0 1] = none ∧
    ((∀ g ∈ [phasedXPow (R := ℚ) 0 1, .rphi 1 1], g.isMeasurement = false) ∧
      ParallelGates (R := ℚ) [phasedXPow 0 1, .rphi 1 1] =
        some (.parallelGates [phasedXPow 0 1, .rphi 1 1])) :=
  ⟨(parallelGates_init_spec _).1.mpr (by decide),
   ⟨by decide, (parallelGates_init_spec _).2 (by decide)⟩⟩

/-- Counterexample to C8 as stated: `ParallelGates()` with the empty
component sequence is accepted by the constructor (no component is a
measurement) and is a successfully constructed gate value whose qubit count
is `0`, not `≥ 1`. -/
theorem parallelGates_qubit_count_counterexample :
    ParallelGates (R := ℚ) [] = some (.parallelGates []) ∧
      Gate.numQubits (R := ℚ) (.parallelGates []) = 0 :=
  ⟨rfl, rfl⟩

/-- Claim C8 as amended: each fixed-arity variant has its fixed qubit count
(2 for `FermionicSwap`, `ZXPower`, `AceCR`, `MSGate`; 1 for `Rphi`), a
constructed `ParallelRphi` has its positive copy count (≥ 1), `Barrier(n)`
has count `n`, and a `ParallelGates` accepted from a nonempty component
sequence in which every component has at least one qubit has qubit count
(the sum of the component counts) at least 1. -/
theorem gate_qubit_count_spec (theta exponent shift phase : R) (p : Polarity)
    (n k : ℕ) (gs : List (Gate R)) (g h : Gate R) :
    Gate.numQubits (.fermionicSWAP theta) = 2 ∧
    Gate.numQubits (.zxPow exponent shift) = 2 ∧
    Gate.numQubits (R := R) (.aceCR p) = 2 ∧
    Gate.numQubits (.msGate theta) = 2 ∧
    Gate.numQubits (.rphi phase exponent) = 1 ∧
    Gate.numQubits (R := R) (.barrier n) = n ∧
    (mkParallelRphi phase exponent k = some g → 1 ≤ g.numQubits) ∧
    (ParallelGates gs = some h → gs ≠ [] → (∀ c ∈ gs, 1 ≤ c.numQubits) →
      1 ≤ h.numQubits) := by
  refine ⟨rfl, rfl, rfl, rfl, rfl, rfl, fun hmk => ?_, fun hpg hne hc => ?_⟩
  · rw [mkParallelRphi] at hmk
    by_cases hk : k = 0
    · simp [hk] at hmk
    · simp only [hk, if_false] at hmk
      cases hmk
      simpa [Gate.numQubits] using Nat.pos_of_ne_zero hk
  · have hh : h = .parallelGates gs := by
      by_cases hany : gs.any Gate.isMeasurement
      · simp [ParallelGates, hany] at hpg
      · simp [ParallelGates, hany] at hpg
        exact hpg.symm
    subst hh
    cases gs with
    | nil => exact absurd rfl hne
    | cons c cs =>
      have h1 : 1 ≤ c.numQubits := hc c (List.mem_cons_self c cs)
      simp only [Gate.numQubits, numQubitsList]
      omega

/-- Witness for the amended C8: a `ParallelRphi` of 2 copies and a
`ParallelGates` of two single-qubit rotations, over ℚ. -/
theorem gate_qubit_count_spec_witness :
    Gate.numQubits (R := ℚ) (.parallelRphi 0 1 2) = 2 ∧
      1 ≤ Gate.numQubits (R := ℚ) (.parallelGates [phasedXPow 0 1, phasedXPow 0 1]) := by
  refine ⟨rfl, ?_⟩
  have h := (gate_qubit_count_spec (R := ℚ) 0 1 0 0 Polarity.pm 1 2
      [phasedXPow 0 1, phasedXPow 0 1] (.parallelRphi 0 1 2)
      (.parallelGates [phasedXPow 0 1, phasedXPow 0 1]))
  exact h.2.2.2.2.2.2.2 rfl (List.cons_ne_nil _ _) (by decide)

/-! ## Componentwise exponentiation of `ParallelGates` (C9) -/

/-- Successful exponentiation does not change whether a gate is a
measurement (each `__pow__` returns a gate of the same class, and
`ParallelGates.__pow__` returns a `ParallelGates`). -/
theorem isMeasurement_pow (g h : Gate R) (e : R) (hp : g.pow e = some h) :
    h.isMeasurement = g.isMeasurement := by
  cases g with
  | fermionicSWAP t =>
    by_cases hc : e = -1 ∨ e = 0 ∨ e = 1 <;>
      simp [Gate.pow, hc] at hp <;> simp [← hp, Gate.isMeasurement]
  | zxPow ex s => simp [Gate.pow] at hp; simp [← hp, Gate.isMeasurement]
  | xPow ex s => simp [Gate.pow] at hp; simp [← hp, Gate.isMeasurement]
  | aceCR p =>
    by_cases hc : e = 1 <;> simp [Gate.pow, hc] at hp
    simp [← hp, Gate.isMeasurement]
  | barrier n => simp [Gate.pow] at hp; simp [← hp, Gate.isMeasurement]
  | msGate r =>
    by_cases hc : e = 1 <;> simp [Gate.pow, hc] at hp
    simp [← hp, Gate.isMeasurement]
  | rphi ph ex => simp [Gate.pow] at hp; simp [← hp, phasedXPow, Gate.isMeasurement]
  | parallelRphi ph ex k =>
    by_cases hk : k = 0 <;> simp [Gate.pow, mkParallelRphi, hk] at hp
    simp [← hp, Gate.isMeasurement]
  | measure n =>
    by_cases hc : e = 1 <;> simp [Gate.pow, hc] at hp
    simp [← hp, Gate.isMeasurement]
  | parallelGates gs =>
    rw [Gate.pow] at hp
    rcases hq : powList gs e with _ | hs
    · rw [hq] at hp; exact absurd hp (by simp)
    · rw [hq] at hp
      by_cases hany : (hs.any Gate.isMeasurement) = true <;>
        simp [ParallelGates, hany] at hp
      simp [← hp, Gate.isMeasurement]

/-- A successful `powList` preserves the length and acts componentwise. -/
theorem powList_spec (e : R) :
    ∀ gs hs : List (Gate R), powList gs e = some hs →
      hs.length = gs.length ∧
      (∀ i (hi : i < gs.length) (hj : i < hs.length),
        (gs.get ⟨i, hi⟩).pow e = some (hs.get ⟨i, hj⟩)) := by
  intro gs
  induction gs with
  | nil =>
    intro hs h
    simp [powList] at h
    subst h
    exact ⟨rfl, fun i hi hj => absurd hi (by simp)⟩
  | cons g gs ih =>
    intro hs h
    rw [powList] at h
    rcases hg : g.pow e with _ | g2 <;> rw [hg] at h
    · exact absurd h (by simp)
    · rcases hgs : powList gs e with _ | gs2 <;> rw [hgs] at h
      · exact absurd h (by simp)
      · have h2 := ih gs2 hgs
        simp only [Option.some.injEq] at h
        subst h
        refine ⟨by simp [h2.1], fun i hi hj => ?_⟩
        cases i with
        | zero => simpa using hg
        | succ i => simpa using h2.2 i (by simpa using hi) (by simpa using hj)

/-- Every member of a successful `powList` result is a power of a member of
the input list. -/
theorem powList_not_measurement (e : R) :
    ∀ gs hs : List (Gate R), (∀ g ∈ gs, g.isMeasurement = false) →
      powList gs e = some hs → ∀ h ∈ hs, h.isMeasurement = false := by
  intro gs
  induction gs with
  | nil =>
    intro hs hm h
    simp [powList] at h
    subst h
    simp
  | cons g gs ih =>
    intro hs hm h
    rw [powList] at h
    rcases hg : g.pow e with _ | g2 <;> rw [hg] at h
    · exact absurd h (by simp)
    · rcases hgs : powList gs e with _ | gs2 <;> rw [hgs] at h
      · exact absurd h (by simp)
      · simp only [Option.some.injEq] at h
        subst h
        intro x hx
        rcases List.mem_cons.mp hx with rfl | hx2
        · rw [isMeasurement_pow g x e hg]
          exact hm g (List.mem_cons_self g gs)
        · exact ih gs2 (fun c hc => hm c (List.mem_cons_of_mem g hc)) hgs x hx2

/-- Claim C9 (implicit): for a `ParallelGates` value (its components contain
no measurement, as the constructor guarantees) and an exponent `e` for which
every component's exponentiation is defined — `powList gs e = some hs` —
`g ** e` equals `ParallelGates(g1 ** e, ..., gn ** e)` (the constructor
applied to the componentwise results, which succeeds), and the component
count and order are preserved: `hs` is as long as `gs` and its `i`-th entry
is `gs[i] ** e`. -/
theorem parallelGates_pow_spec (gs hs : List (Gate R)) (e : R)
    (hmeas : ∀ g ∈ gs, g.isMeasurement = false)
    (hpow : powList gs e = some hs) :
    (Gate.parallelGates gs).pow e = ParallelGates hs ∧
    (Gate.parallelGates gs).pow e = some (.parallelGates hs) ∧
    hs.length = gs.length ∧
    (∀ i (hi : i < gs.length) (hj : i < hs.length),
      (gs.get ⟨i, hi⟩).pow e = some (hs.get ⟨i, hj⟩)) := by
  have hhs : ∀ h ∈ hs, h.isMeasurement = false :=
    powList_not_measurement e gs hs hmeas hpow
  have hany : hs.any Gate.isMeasurement = false := by
    rw [List.any_eq_false]
    intro h hh
    simp [hhs h hh]
  have h1 : (Gate.parallelGates gs).pow e = ParallelGates hs := by
    rw [Gate.pow, hpow]
  refine ⟨h1, ?_, (powList_spec e gs hs hpow).1, (powList_spec e gs hs hpow).2⟩
  rw [h1, ParallelGates, hany]
  simp

/-- Witness for C9 over ℚ: `ParallelGates(FermionicSWAP(θ=π/2), Rphi)` at
exponent `-1`. -/
theorem parallelGates_pow_spec_witness :
    ((∀ g ∈ [Gate.fermionicSWAP (1 / 2 : ℚ), phasedXPow 0 (1 / 2)],
        g.isMeasurement = false) ∧
      powList [Gate.fermionicSWAP (1 / 2 : ℚ), phasedXPow 0 (1 / 2)] (-1) =
        some [Gate.fermionicSWAP (-(1 / 2) : ℚ), .rphi 0 (-(1 / 2))]) ∧
    (Gate.parallelGates [Gate.fermionicSWAP (1 / 2 : ℚ), phasedXPow 0 (1 / 2)]).pow (-1) =
      some (.parallelGates [Gate.fermionicSWAP (-(1 / 2) : ℚ), .rphi 0 (-(1 / 2))]) := by
  have hp : powList [Gate.fermionicSWAP (1 / 2 : ℚ), phasedXPow 0 (1 / 2)] (-1) =
      some [Gate.fermionicSWAP (-(1 / 2) : ℚ), .rphi 0 (-(1 / 2))] := by
    norm_num [powList, Gate.pow, phasedXPow, canonicalizeFsim, canonicalizeHalfTurns]
  exact ⟨⟨by decide, hp⟩, (parallelGates_pow_spec _ _ (-1) (by decide) hp).2.1⟩

/-! ## Round-trip through the type registry (C7) -/

/-- A canonical value is not a measurement. -/
theorem canonical_not_isMeasurement (g : Gate R) (hg : g.Canonical) :
    g.isMeasurement = false := by
  cases g <;> first
    | rfl
    | (rw [Gate.Canonical] at hg; exact hg.elim)

/-- No member of a canonical component list is a measurement. -/
theorem canonicalList_not_isMeasurement :
    ∀ gs : List (Gate R), CanonicalList gs → ∀ g ∈ gs, g.isMeasurement = false := by
  intro gs
  induction gs with
  | nil => intro _ g hg; simp at hg
  | cons c cs ih =>
    intro hc g hg
    rw [CanonicalList] at hc
    rcases List.mem_cons.mp hg with rfl | hg2
    · exact canonical_not_isMeasurement g hc.1
    · exact ih hc.2 g hg2

/-- Fuel-indexed round-trip law: every canonical value exports successfully
and is reconstructed unchanged by the variant's constructor. -/
theorem roundtrip_aux : ∀ n : ℕ,
    (∀ g : Gate R, sizeOf g ≤ n → g.Canonical →
      ∃ j, g.jsonDict = some j ∧ reconstruct j = some g) ∧
    (∀ gs : List (Gate R), sizeOf gs ≤ n → CanonicalList gs →
      ∃ js, jsonDictList gs = some js ∧ reconstructList js = some gs) := by
  intro n
  induction n with
  | zero =>
    constructor
    · intro g hg _
      exfalso
      cases g <;> simp_arith at hg
    · intro gs hgs _
      exfalso
      cases gs <;> simp_arith at hgs
  | succ n ih =>
    constructor
    · intro g hsz hc
      cases g with
      | fermionicSWAP t =>
        rw [Gate.Canonical] at hc
        exact ⟨.fermionicSWAP t, by rw [Gate.jsonDict], by rw [reconstruct, hc]⟩
      | zxPow e s => exact ⟨.zxPow e s, by rw [Gate.jsonDict], by rw [reconstruct]⟩
      | xPow e s => rw [Gate.Canonical] at hc; exact hc.elim
      | aceCR p =>
        exact ⟨.aceCR p, by rw [Gate.jsonDict], by rw [reconstruct]; rfl⟩
      | barrier m =>
        exact ⟨.barrier m, by rw [Gate.jsonDict], by rw [reconstruct]; rfl⟩
      | msGate r => rw [Gate.Canonical] at hc; exact hc.elim
      | rphi ph ex =>
        rw [Gate.Canonical] at hc
        exact ⟨.rphi ph ex, by rw [Gate.jsonDict],
          by rw [reconstruct, phasedXPow, hc]⟩
      | parallelRphi ph ex k =>
        rw [Gate.Canonical] at hc
        refine ⟨.parallelRphi ph ex k, by rw [Gate.jsonDict], ?_⟩
        rw [reconstruct, mkParallelRphi, if_neg hc.2, hc.1]
      | measure m => rw [Gate.Canonical] at hc; exact hc.elim
      | parallelGates gs =>
        rw [Gate.Canonical] at hc
        have hsz2 : sizeOf gs ≤ n := by simp_arith at hsz; omega
        obtain ⟨js, hjs, hrs⟩ := ih.2 gs hsz2 hc
        refine ⟨.parallelGates js, by rw [Gate.jsonDict, hjs], ?_⟩
        rw [reconstruct, hrs]
        have hany : gs.any Gate.isMeasurement = false := by
          rw [List.any_eq_false]
          intro g hg
          simp [canonicalList_not_isMeasurement gs hc g hg]
        simp [ParallelGates, hany]
    · intro gs hsz hc
      cases gs with
      | nil => exact ⟨[], rfl, rfl⟩
      | cons g gs =>
        rw [CanonicalList] at hc
        have h1 : sizeOf g ≤ n := by simp_arith at hsz; omega
        have h2 : sizeOf gs ≤ n := by simp_arith at hsz; omega
        obtain ⟨j, hj, hr⟩ := ih.1 g h1 hc.1
        obtain ⟨js, hjs, hrs⟩ := ih.2 gs h2 hc.2
        exact ⟨j :: js, by rw [jsonDictList, hj, hjs], by rw [reconstructList, hr, hrs]⟩

/-- The registry resolves the type tag of every export of this module to a
constructor, and that constructor agrees with direct reconstruction on a
payload of the matching variant. -/
theorem custom_resolver_covers (j : GateJson R) :
    ∃ c, custom_resolver (R := R) j.cirqType = some c ∧ c j = reconstruct j := by
  cases j <;> refine ⟨_, rfl, ?_⟩ <;> rw [reconstruct]

/-- Claim C7: for every canonical value of the seven data-model variants
(`FermionicSwap`, `ZXPower`, `AceCR`, `Barrier`, `Rphi`, `ParallelRphi`,
`ParallelGates`; see `Gate.Canonical`), the structured export succeeds, the
registry resolves its type tag to a constructor, and applying that
constructor to the export reproduces a gate equal to the original:
`reconstruct(export(g)) == g`. -/
theorem roundtrip_spec (g : Gate R) (hc : g.Canonical) :
    ∃ j, g.jsonDict = some j ∧
      ∃ c, custom_resolver (R := R) j.cirqType = some c ∧ c j = some g := by
  obtain ⟨j, hj, hr⟩ := (roundtrip_aux (sizeOf g)).1 g le_rfl hc
  obtain ⟨c, hc2, he⟩ := custom_resolver_covers j
  exact ⟨j, hj, c, hc2, he.trans hr⟩

/-- Witness for C7 over ℚ: a `ParallelGates` containing one value of each
nested variant kind. -/
theorem roundtrip_spec_witness :
    Gate.Canonical (R := ℚ)
      (.parallelGates [.fermionicSWAP (1 / 2), .rphi 0 1, .barrier 2,
        .zxPow (1 / 4) 0, .aceCR .pm, .parallelRphi 0 1 3]) ∧
    ∃ j, Gate.jsonDict (R := ℚ)
        (.parallelGates [.fermionicSWAP (1 / 2), .rphi 0 1, .barrier 2,
          .zxPow (1 / 4) 0, .aceCR .pm, .parallelRphi 0 1 3]) = some j ∧
      ∃ c, custom_resolver (R := ℚ) j.cirqType = some c ∧
        c j = some (.parallelGates [.fermionicSWAP (1 / 2), .rphi 0 1, .barrier 2,
          .zxPow (1 / 4) 0, .aceCR .pm, .parallelRphi 0 1 3]) := by
  have hc : Gate.Canonical (R := ℚ)
      (.parallelGates [.fermionicSWAP (1 / 2), .rphi 0 1, .barrier 2,
        .zxPow (1 / 4) 0, .aceCR .pm, .parallelRphi 0 1 3]) := by
    rw [Gate.Canonical]
    repeat rw [CanonicalList]
    repeat rw [Gate.Canonical]
    norm_num [canonicalizeFsim, canonicalizeHalfTurns]
  exact ⟨hc, roundtrip_spec _ hc⟩

/-! ## The unitary of `FermionicSWAPGate` (C3) -/

open Matrix

/-- `exp(iθ)` for real `θ` lies on the unit circle:
`conj (exp (iθ)) * exp (iθ) = 1`. -/
theorem conj_exp_mul_I (theta : ℝ) :
    (starRingEnd ℂ) (Complex.exp (theta * Complex.I)) *
      Complex.exp (theta * Complex.I) = 1 := by
  rw [← Complex.exp_conj, ← Complex.exp_add]
  have h : (starRingEnd ℂ) ((theta : ℂ) * Complex.I) + (theta : ℂ) * Complex.I = 0 := by
    simp [mul_neg]
  rw [h, Complex.exp_zero]

/-- The conjugate transpose of the `FermionicSWAPGate` matrix is the same
matrix with the conjugated phase entry (the matrix is symmetric). -/
theorem fermionicSWAPUnitary_conjTranspose (u : ℂ) :
    (fermionicSWAPUnitary u)ᴴ = fermionicSWAPUnitary ((starRingEnd ℂ) u) := by
  ext i j
  fin_cases i <;> fin_cases j <;>
    simp [fermionicSWAPUnitary, Matrix.conjTranspose_apply, Matrix.vecHead, Matrix.vecTail]

/-- The matrix of `FermionicSWAPGate._unitary_` is unitary whenever its
phase entry lies on the unit circle. -/
theorem fermionicSWAPUnitary_unitary (u : ℂ) (hu : (starRingEnd ℂ) u * u = 1) :
    (fermionicSWAPUnitary u)ᴴ * fermionicSWAPUnitary u = 1 := by
  rw [fermionicSWAPUnitary_conjTranspose]
  ext i j
  fin_cases i <;> fin_cases j <;>
    simp [fermionicSWAPUnitary, Matrix.mul_apply, Fin.sum_univ_four, Matrix.one_apply,
      Matrix.vecHead, Matrix.vecTail, hu]

theorem fermionicSWAP_stored_angle (theta : ℝ) :
    ∃ k : ℤ, ((FermionicSWAPGate Real.pi theta).thetaHT * Real.pi : ℝ) =
      theta - k * (2 * Real.pi) := by
  obtain ⟨k, hk⟩ := canonicalizeFsim_sub_self (R := ℝ) (theta / Real.pi)
  refine ⟨k, ?_⟩
  have ht : (FermionicSWAPGate Real.pi theta).thetaHT = canonicalizeFsim (theta / Real.pi) := rfl
  rw [ht, hk, sub_mul, div_mul_cancel₀ _ Real.pi_ne_zero, zsmul_eq_mul]
  ring

/-- Claim C3: for every concrete angle `theta` (radians), the unitary of
`FermionicSWAPGate(theta)` — `fermionicSWAPUnitary u` with entry
`u = np.exp(1j * self.theta)` for the stored canonicalized angle — equals
`fermionicSWAPUnitary (exp (i·theta))`; this matrix fixes the basis states
`|00⟩` and `|11⟩` and maps `|01⟩` and `|10⟩` to each other multiplied by
`exp (i·theta)`; it is unitary (`Mᴴ * M = 1`); and whenever
`theta = 2π·k` (`theta ≡ 0 (mod 2π)`, phase factor 1) it equals the SWAP
permutation matrix. -/
theorem fermionicSWAP_unitary_spec (theta : ℝ) :
    fermionicSWAPUnitary (Complex.exp
        (((FermionicSWAPGate Real.pi theta).thetaHT * Real.pi : ℝ) * Complex.I)) =
      fermionicSWAPUnitary (Complex.exp (theta * Complex.I)) ∧
    (fermionicSWAPUnitary (Complex.exp (theta * Complex.I)))ᴴ *
      fermionicSWAPUnitary (Complex.exp (theta * Complex.I)) = 1 ∧
    (fermionicSWAPUnitary (Complex.exp (theta * Complex.I))).mulVec
        ((Pi.single 0 1 : Fin 4 → ℂ)) = (Pi.single 0 1 : Fin 4 → ℂ) ∧
    (fermionicSWAPUnitary (Complex.exp (theta * Complex.I))).mulVec
        ((Pi.single 1 1 : Fin 4 → ℂ)) = Complex.exp (theta * Complex.I) • (Pi.single 2 1 : Fin 4 → ℂ) ∧
    (fermionicSWAPUnitary (Complex.exp (theta * Complex.I))).mulVec
        ((Pi.single 2 1 : Fin 4 → ℂ)) = Complex.exp (theta * Complex.I) • (Pi.single 1 1 : Fin 4 → ℂ) ∧
    (fermionicSWAPUnitary (Complex.exp (theta * Complex.I))).mulVec
        ((Pi.single 3 1 : Fin 4 → ℂ)) = (Pi.single 3 1 : Fin 4 → ℂ) ∧
    (∀ k : ℤ, theta = 2 * Real.pi * k →
      fermionicSWAPUnitary (Complex.exp
          (((FermionicSWAPGate Real.pi theta).thetaHT * Real.pi : ℝ) * Complex.I)) =
        swapMatrix) := by
  have hexp : Complex.exp
      ((((FermionicSWAPGate Real.pi theta).thetaHT * Real.pi : ℝ) : ℂ) * Complex.I) =
      Complex.exp ((theta : ℂ) * Complex.I) := by
    obtain ⟨k, hk⟩ := fermionicSWAP_stored_angle theta
    rw [hk]
    push_cast
    rw [sub_mul, Complex.exp_sub, mul_assoc ((k : ℂ)) _ Complex.I,
      Complex.exp_int_mul_two_pi_mul_I, div_one]
  have h1 : fermionicSWAPUnitary (Complex.exp
      (((FermionicSWAPGate Real.pi theta).thetaHT * Real.pi : ℝ) * Complex.I)) =
      fermionicSWAPUnitary (Complex.exp (theta * Complex.I)) :=
    congrArg fermionicSWAPUnitary hexp
  refine ⟨h1, fermionicSWAPUnitary_unitary _ (conj_exp_mul_I theta), ?_, ?_, ?_, ?_, ?_⟩
  · funext i
    fin_cases i <;>
      simp [fermionicSWAPUnitary, Matrix.mulVec, dotProduct, Fin.sum_univ_four,
        Pi.single_apply]
  · funext i
    fin_cases i <;>
      simp [fermionicSWAPUnitary, Matrix.mulVec, dotProduct, Fin.sum_univ_four,
        Pi.single_apply]
  · funext i
    fin_cases i <;>
      simp [fermionicSWAPUnitary, Matrix.mulVec, dotProduct, Fin.sum_univ_four,
        Pi.single_apply]
  · funext i
    fin_cases i <;>
      simp [fermionicSWAPUnitary, Matrix.mulVec, dotProduct, Fin.sum_univ_four,
        Pi.single_apply]
  · intro k hk
    rw [h1]
    have hθ : ((theta : ℂ)) * Complex.I = (k : ℂ) * (2 * (Real.pi : ℂ) * Complex.I) := by
      rw [hk]
      push_cast
      ring
    rw [hθ, Complex.exp_int_mul_two_pi_mul_I]
    rfl

/-- Witness for C3 at `theta = 0` and `k = 0`. -/
theorem fermionicSWAP_unitary_spec_witness :
    (0 : ℝ) = 2 * Real.pi * (0 : ℤ) ∧
    fermionicSWAPUnitary (Complex.exp
        (((FermionicSWAPGate Real.pi 0).thetaHT * Real.pi : ℝ) * Complex.I)) =
      swapMatrix :=
  ⟨by norm_num, (fermionicSWAP_unitary_spec 0).2.2.2.2.2.2 0 (by norm_num)⟩

/-! ## Structure of the equivalence-group computation (C1, C10) -/

/-- Qubit counts add over list concatenation. -/
theorem numQubitsList_append (l1 l2 : List (Gate R)) :
    numQubitsList (l1 ++ l2) = numQubitsList l1 + numQubitsList l2 := by
  induction l1 with
  | nil => simp [numQubitsList]
  | cons g gs ih => rw [List.cons_append, numQubitsList, numQubitsList, ih]; omega

/-- A prefix of the component list carries at most as many qubits. -/
theorem numQubitsList_take_le (gs : List (Gate R)) (n : ℕ) :
    numQubitsList (gs.take n) ≤ numQubitsList gs := by
  conv_rhs => rw [← List.take_append_drop n gs]
  rw [numQubitsList_append]
  omega

/-- The local index returned by the scan is at most the global index. -/
theorem qitgai_le (gs : List (Gate R)) :
    ∀ i g j, qubitIndexToGateAndIndex gs i = some (g, j) → j ≤ i := by
  induction gs with
  | nil => intro i g j h; simp [qubitIndexToGateAndIndex] at h
  | cons a gs ih =>
    intro i g j h
    by_cases hc : i < a.numQubits
    · simp [qubitIndexToGateAndIndex, hc] at h
      omega
    · simp only [qubitIndexToGateAndIndex, if_neg hc] at h
      have := ih (i - a.numQubits) g j h
      omega

/-- The local index returned by the scan is within the owning component. -/
theorem qitgai_lt_numQubits (gs : List (Gate R)) :
    ∀ i g j, qubitIndexToGateAndIndex gs i = some (g, j) → j < g.numQubits := by
  induction gs with
  | nil => intro i g j h; simp [qubitIndexToGateAndIndex] at h
  | cons a gs ih =>
    intro i g j h
    by_cases hc : i < a.numQubits
    · simp [qubitIndexToGateAndIndex, hc] at h
      obtain ⟨rfl, rfl⟩ := h
      exact hc
    · simp only [qubitIndexToGateAndIndex, if_neg hc] at h
      exact ih (i - a.numQubits) g j h

/-- A successful scan decomposes the component list around the owning
component, the global index being the qubit offset of that component plus
the local index. -/
theorem qitgai_decomp (gs : List (Gate R)) :
    ∀ i g j, qubitIndexToGateAndIndex gs i = some (g, j) →
      ∃ pre post, gs = pre ++ g :: post ∧ i = numQubitsList pre + j := by
  induction gs with
  | nil => intro i g j h; simp [qubitIndexToGateAndIndex] at h
  | cons a gs ih =>
    intro i g j h
    by_cases hc : i < a.numQubits
    · simp [qubitIndexToGateAndIndex, hc] at h
      exact ⟨[], gs, by rw [h.1]; rfl, by simp [numQubitsList, h.2]⟩
    · simp only [qubitIndexToGateAndIndex, if_neg hc] at h
      obtain ⟨pre, post, hgs, hoff⟩ := ih (i - a.numQubits) g j h
      refine ⟨a :: pre, post, by rw [hgs]; rfl, ?_⟩
      rw [numQubitsList]
      omega

/-- Every in-range global index has an owning component. -/
theorem qitgai_exists (gs : List (Gate R)) :
    ∀ i, i < numQubitsList gs →
      ∃ g j, qubitIndexToGateAndIndex gs i = some (g, j) := by
  induction gs with
  | nil => intro i h; simp [numQubitsList] at h
  | cons a gs ih =>
    intro i h
    by_cases hc : i < a.numQubits
    · exact ⟨a, i, by simp [qubitIndexToGateAndIndex, hc]⟩
    · rw [numQubitsList] at h
      obtain ⟨g, j, hg⟩ := ih (i - a.numQubits) (by omega)
      exact ⟨g, j, by simp only [qubitIndexToGateAndIndex, if_neg hc]; exact hg⟩

/-- Scanning at the qubit offset of a listed component plus a valid local
index finds exactly that component and that local index (components before
it are skipped because the remaining index stays at least as large as their
qubit count). -/
theorem qitgai_offset (g : Gate R) :
    ∀ (pre post : List (Gate R)) (j : ℕ), j < g.numQubits →
      qubitIndexToGateAndIndex (pre ++ g :: post) (numQubitsList pre + j) =
        some (g, j) := by
  intro pre
  induction pre with
  | nil =>
    intro post j hj
    simp [qubitIndexToGateAndIndex, numQubitsList, hj]
  | cons a pre ih =>
    intro post j hj
    have hge : ¬(numQubitsList (a :: pre) + j < a.numQubits) := by
      rw [numQubitsList]; omega
    rw [List.cons_append]
    simp only [qubitIndexToGateAndIndex, if_neg hge]
    have harith : numQubitsList (a :: pre) + j - a.numQubits = numQubitsList pre + j := by
      rw [numQubitsList]; omega
    rw [harith]
    exact ih post j hj

/-- `list.index(g)` (`findIdx` over value equality) finds the first
component equal to `g`: the list splits as `pre ++ g :: post` with no
earlier occurrence, and the returned index is `pre.length`. -/
theorem findIdx_beq_first (gs : List (Gate R)) (g : Gate R) (hg : g ∈ gs) :
    ∃ pre post, gs = pre ++ g :: post ∧ (∀ x ∈ pre, x ≠ g) ∧
      gs.findIdx (fun x => Gate.beq x g) = pre.length := by
  induction gs with
  | nil => simp at hg
  | cons a gs ih =>
    by_cases ha : Gate.beq a g = true
    · have hag : a = g := (Gate.beq_iff_eq a g).mp ha
      subst hag
      exact ⟨[], gs, rfl, by simp, by simp [List.findIdx_cons, ha]⟩
    · have hne : a ≠ g := fun h => ha ((Gate.beq_iff_eq a g).mpr h)
      have hg2 : g ∈ gs := by
        rcases List.mem_cons.mp hg with h | h
        · exact absurd h.symm hne
        · exact h
      obtain ⟨pre, post, hdecomp, hpre, hidx⟩ := ih hg2
      refine ⟨a :: pre, post, by rw [hdecomp]; rfl, ?_, ?_⟩
      · intro x hx
        rcases List.mem_cons.mp hx with rfl | hx2
        · exact hne
        · exact hpre x hx2
      · simp [List.findIdx_cons, ha, hidx]

/-- `find?` over `range n` returns the first index satisfying the
predicate: all smaller indices fail it. -/
theorem find?_range_first (p : ℕ → Bool) :
    ∀ n m : ℕ, (List.range n).find? p = some m →
      p m = true ∧ m < n ∧ ∀ m2, m2 < m → p m2 = false := by
  intro n
  induction n with
  | zero => intro m h; simp [List.range_zero] at h
  | succ n ih =>
    intro m h
    rw [List.range_succ, List.find?_append] at h
    rcases hf : (List.range n).find? p with _ | m0
    · rw [hf] at h
      simp only [Option.none_or] at h
      have hall : ∀ m2, m2 < n → p m2 = false := by
        intro m2 hm2
        have := List.find?_eq_none.mp hf m2 (List.mem_range.mpr hm2)
        simpa using this
      by_cases hp : p n = true
      · rw [List.find?_cons_of_pos _ hp, Option.some.injEq] at h
        subst h
        exact ⟨hp, by omega, hall⟩
      · rw [Bool.not_eq_true] at hp
        rw [List.find?_cons_of_neg _ (by simp [hp])] at h
        simp at h
    · rw [hf] at h
      simp only [Option.or] at h
      cases h
      have h3 := ih _ hf
      exact ⟨h3.1, by omega, h3.2.2⟩

/-- Fuel-indexed: the equivalence-group key is defined (raises no
out-of-range error) at every in-range index, for `ParallelGates` and for
every component's own key function. -/
theorem key_isSome_aux : ∀ n : ℕ,
    (∀ gs : List (Gate R), sizeOf gs ≤ n → ∀ i, i < numQubitsList gs →
      ∃ k, pgKey gs i = some k) ∧
    (∀ g : Gate R, sizeOf g ≤ n → ∀ j, j < g.numQubits →
      ∃ k, innerKey g j = some k) := by
  intro n
  induction n with
  | zero =>
    constructor
    · intro gs hsz
      exfalso
      cases gs <;> simp_arith at hsz
    · intro g hsz
      exfalso
      cases g <;> simp_arith at hsz
  | succ n ih =>
    constructor
    · intro gs hsz i hi
      rw [pgKey]
      split
      · rename_i heq
        obtain ⟨g, j, hq⟩ := qitgai_exists gs i hi
        rw [heq] at hq
        exact absurd hq (by simp)
      · rename_i g j heq
        have hmem := mem_of_qubitIndexToGateAndIndex heq
        have hj := qitgai_lt_numQubits gs i g j heq
        have hszg : sizeOf g ≤ n := by
          have h1 := List.sizeOf_lt_of_mem hmem
          omega
        by_cases h1 : g.numQubits = 1
        · rw [if_pos h1]
          exact ⟨_, rfl⟩
        · simp only [if_neg h1]
          by_cases h2 : g.interchangeable = true
          · simp only [h2, if_pos]
            obtain ⟨gateKey, hik⟩ := ih.2 g hszg j hj
            simp only [hik]
            rcases hf : (List.range j).find?
                (fun i2 => decide (innerKey g i2 = some gateKey)) with _ | m <;>
              simp only [hf] <;> exact ⟨_, rfl⟩
          · simp only [if_neg h2]
            exact ⟨_, rfl⟩
    · intro g hsz j hj
      cases g with
      | parallelGates gs =>
        rw [innerKey]
        have hsz2 : sizeOf gs ≤ n := by simp_arith at hsz; omega
        have hj2 : j < numQubitsList gs := by
          simpa [Gate.numQubits] using hj
        exact ih.1 gs hsz2 j hj2
      | fermionicSWAP t => exact ⟨0, by simp [innerKey]⟩
      | zxPow e s => exact ⟨0, by simp [innerKey]⟩
      | xPow e s => exact ⟨0, by simp [innerKey]⟩
      | aceCR p => exact ⟨0, by simp [innerKey]⟩
      | barrier m => exact ⟨0, by simp [innerKey]⟩
      | msGate r => exact ⟨0, by simp [innerKey]⟩
      | rphi ph ex => exact ⟨0, by simp [innerKey]⟩
      | parallelRphi ph ex k => exact ⟨0, by simp [innerKey]⟩
      | measure m => exact ⟨0, by simp [innerKey]⟩

/-- Claim C10 (implicit): for every `ParallelGates` value and every in-range
global qubit index `i`, `qubit_index_to_equivalence_group_key` returns a key
`k` with `k ≤ i`, `k` itself an in-range qubit index, and the function
idempotent on keys: the key of `k` is `k` itself (each group is labeled by
its own smallest representative, which maps to itself). -/
theorem pgKey_fixed_point_spec (gs : List (Gate R)) (i : ℕ)
    (hi : i < numQubitsList gs) :
    ∃ k, pgKey gs i = some k ∧ k ≤ i ∧ k < numQubitsList gs ∧
      pgKey gs k = some k := by
  obtain ⟨g, j, hq⟩ := qitgai_exists gs i hi
  have hj := qitgai_lt_numQubits gs i g j hq
  have hji := qitgai_le gs i g j hq
  have hmem := mem_of_qubitIndexToGateAndIndex hq
  obtain ⟨pre, post, hgs, hoff⟩ := qitgai_decomp gs i g j hq
  rw [pgKey]
  split
  · rename_i heq
    rw [heq] at hq
    exact absurd hq (by simp)
  · rename_i g3 j3 heq
    rw [hq] at heq
    obtain ⟨rfl, rfl⟩ : g = g3 ∧ j = j3 := by simpa using heq
    by_cases h1 : g.numQubits = 1
    · rw [if_pos h1]
      obtain ⟨pre1, post1, hgs1, hnot1, hfind⟩ := findIdx_beq_first gs g hmem
      have htake : gs.take (gs.findIdx fun x => Gate.beq x g) = pre1 := by
        rw [hfind, hgs1]
        exact List.take_left pre1 _
      rw [htake]
      have hle : numQubitsList pre1 ≤ numQubitsList pre := by
        rcases le_or_lt pre1.length pre.length with hll | hll
        · have e1 : gs.take pre1.length = pre1 := by
            rw [hgs1]; exact List.take_left pre1 _
          have e2 : gs.take pre1.length = pre.take pre1.length := by
            rw [hgs]; exact List.take_append_of_le_length hll
          have e3 : pre1 = pre.take pre1.length := e1.symm.trans e2
          rw [e3]
          exact numQubitsList_take_le pre pre1.length
        · exfalso
          have e4 : gs.take (pre.length + 1) = pre ++ [g] := by
            rw [hgs]
            have e5 : pre ++ g :: post = (pre ++ [g]) ++ post := by simp
            have e6 : pre.length + 1 = (pre ++ [g]).length := by simp
            rw [e5, e6]
            exact List.take_left _ _
          have e7 : gs.take (pre.length + 1) = pre1.take (pre.length + 1) := by
            rw [hgs1]
            exact List.take_append_of_le_length (by omega)
          have e8 : g ∈ pre1.take (pre.length + 1) := by
            rw [← e7, e4]
            simp
          exact hnot1 g (List.mem_of_mem_take e8) rfl
      have htot : numQubitsList gs =
          numQubitsList pre1 + (g.numQubits + numQubitsList post1) := by
        rw [hgs1, numQubitsList_append, numQubitsList]
      refine ⟨numQubitsList pre1, rfl, by omega, by omega, ?_⟩
      have hscan : qubitIndexToGateAndIndex gs (numQubitsList pre1) = some (g, 0) := by
        conv_lhs => rw [hgs1]
        have h0 := qitgai_offset g pre1 post1 0 (by omega)
        simpa using h0
      rw [pgKey]
      split
      · rename_i heq2
        rw [heq2] at hscan
        exact absurd hscan (by simp)
      · rename_i g4 j4 heq2
        rw [hscan] at heq2
        obtain ⟨rfl, rfl⟩ : g = g4 ∧ 0 = j4 := by simpa using heq2
        rw [if_pos h1, htake]
    · rw [if_neg h1]
      by_cases h2 : g.interchangeable = true
      · rw [if_pos h2]
        obtain ⟨gateKey, hik⟩ := (key_isSome_aux (sizeOf g)).2 g le_rfl j hj
        simp only [hik]
        rcases hf : (List.range j).find?
            (fun i2 => decide (innerKey g i2 = some gateKey)) with _ | m
        · simp only [hf]
          refine ⟨i, rfl, le_rfl, hi, ?_⟩
          rw [pgKey]
          split
          · rename_i heq2
            rw [heq2] at hq
            exact absurd hq (by simp)
          · rename_i g4 j4 heq2
            rw [hq] at heq2
            obtain ⟨rfl, rfl⟩ : g = g4 ∧ j = j4 := by simpa using heq2
            rw [if_neg h1, if_pos h2]
            simp only [hik, hf]
        · have hfirst := find?_range_first _ j m hf
          have hpm : innerKey g m = some gateKey := by
            have h5 := hfirst.1
            simpa using h5
          have hmj : m < j := hfirst.2.1
          simp only [hf]
          refine ⟨i - j + m, rfl, by omega, by omega, ?_⟩
          have hk : i - j + m = numQubitsList pre + m := by omega
          have hscan : qubitIndexToGateAndIndex gs (i - j + m) = some (g, m) := by
            rw [hk]
            conv_lhs => rw [hgs]
            exact qitgai_offset g pre post m (by omega)
          rw [pgKey]
          split
          · rename_i heq2
            rw [heq2] at hscan
            exact absurd hscan (by simp)
          · rename_i g4 j4 heq2
            rw [hscan] at heq2
            obtain ⟨rfl, rfl⟩ : g = g4 ∧ m = j4 := by simpa using heq2
            rw [if_neg h1, if_pos h2]
            simp only [hpm]
            have hnone : (List.range m).find?
                (fun i2 => decide (innerKey g i2 = some gateKey)) = none := by
              rw [List.find?_eq_none]
              intro x hx
              rw [List.mem_range] at hx
              have h6 := hfirst.2.2 x (by omega)
              simp [h6]
            simp only [hnone]
      · rw [if_neg h2]
        refine ⟨i, rfl, le_rfl, hi, ?_⟩
        rw [pgKey]
        split
        · rename_i heq2
          rw [heq2] at hq
          exact absurd hq (by simp)
        · rename_i g4 j4 heq2
          rw [hq] at heq2
          obtain ⟨rfl, rfl⟩ : g = g4 ∧ j = j4 := by simpa using heq2
          rw [if_neg h1, if_neg h2]

/-- Witness for C10 over ℚ: `ParallelGates(Rphi, FermionicSWAP, Rphi)` at
global index 3 (the second `Rphi`, whose key is the offset 0 of the first
equal instance). -/
theorem pgKey_fixed_point_spec_witness :
    3 < numQubitsList [phasedXPow (0 : ℚ) 1, .fermionicSWAP (1 / 2), phasedXPow 0 1] ∧
    ∃ k, pgKey [phasedXPow (0 : ℚ) 1, .fermionicSWAP (1 / 2), phasedXPow 0 1] 3 = some k ∧
      k ≤ 3 ∧ k < numQubitsList [phasedXPow (0 : ℚ) 1, .fermionicSWAP (1 / 2), phasedXPow 0 1] ∧
      pgKey [phasedXPow (0 : ℚ) 1, .fermionicSWAP (1 / 2), phasedXPow 0 1] k = some k :=
  ⟨by decide, pgKey_fixed_point_spec _ 3 (by decide)⟩

/-- Claim C1: for every `ParallelGates` value and every global qubit index
owned by a single-qubit component, `qubit_index_to_equivalence_group_key`
returns the global qubit index (qubit offset) of the first component in
sequence order equal (value equality) to the owning component: the
components split as `pre ++ g :: post` with no member of `pre` equal to `g`
and the key is the qubit count of `pre`.  In particular, for
`ParallelGates(Rphi(0,1), Rphi(0,1))` (two identical single-qubit
rotations) both indices 0 and 1 map to key 0, and for
`ParallelGates(Rphi(0,1), Rphi(1,1))` (two different rotations) indices 0
and 1 map to the distinct keys 0 and 1. -/
theorem pgKey_single_qubit_spec :
    (∀ (gs : List (Gate ℝ)) (i : ℕ) (g : Gate ℝ) (j : ℕ),
      qubitIndexToGateAndIndex gs i = some (g, j) → g.numQubits = 1 →
      ∃ pre post, gs = pre ++ g :: post ∧ (∀ x ∈ pre, x ≠ g) ∧
        pgKey gs i = some (numQubitsList pre)) ∧
    (pgKey [Rphi Real.pi 0 1, Rphi Real.pi 0 1] 0 = some 0 ∧
     pgKey [Rphi Real.pi 0 1, Rphi Real.pi 0 1] 1 = some 0) ∧
    (pgKey [Rphi Real.pi 0 1, Rphi Real.pi 1 1] 0 = some 0 ∧
     pgKey [Rphi Real.pi 0 1, Rphi Real.pi 1 1] 1 = some 1) := by
  have hc0 : canonicalizeHalfTurns (0 : ℝ) = 0 := by
    norm_num [canonicalizeHalfTurns]
  have hpi1 : (1 : ℝ) < Real.pi := by
    have h3 := Real.pi_gt_three
    linarith
  have hinv1 : (Real.pi⁻¹ : ℝ) < 1 := by
    rw [inv_lt_one_iff₀]
    right
    exact hpi1
  have hfloor : ⌊(Real.pi⁻¹ : ℝ) / 2⌋ = 0 := by
    rw [Int.floor_eq_zero_iff]
    constructor
    · positivity
    · have h4 : (Real.pi⁻¹ : ℝ) / 2 < 1 := by linarith
      simpa using h4
  have hc1 : canonicalizeHalfTurns (Real.pi⁻¹ : ℝ) = Real.pi⁻¹ := by
    rw [canonicalizeHalfTurns, hfloor]
    norm_num
    linarith
  have hg1 : Rphi Real.pi 0 1 = Gate.rphi (0 : ℝ) Real.pi⁻¹ := by
    rw [Rphi, phasedXPow, zero_div, hc0, one_div]
  have hg2 : Rphi Real.pi 1 1 = Gate.rphi (Real.pi⁻¹ : ℝ) Real.pi⁻¹ := by
    rw [Rphi, phasedXPow, one_div, hc1]
  have hne : Gate.rphi (0 : ℝ) Real.pi⁻¹ ≠ Gate.rphi Real.pi⁻¹ Real.pi⁻¹ := by
    intro h
    injection h with h1 h2
    have h5 : (Real.pi⁻¹ : ℝ) ≠ 0 := inv_ne_zero Real.pi_ne_zero
    exact h5 h1.symm
  have haa : Gate.beq (Gate.rphi (0 : ℝ) Real.pi⁻¹)
      (Gate.rphi (0 : ℝ) Real.pi⁻¹) = true :=
    (Gate.beq_iff_eq _ _).mpr rfl
  have hbb : Gate.beq (Gate.rphi (Real.pi⁻¹ : ℝ) Real.pi⁻¹)
      (Gate.rphi (Real.pi⁻¹ : ℝ) Real.pi⁻¹) = true :=
    (Gate.beq_iff_eq _ _).mpr rfl
  have hab : Gate.beq (Gate.rphi (0 : ℝ) Real.pi⁻¹)
      (Gate.rphi (Real.pi⁻¹ : ℝ) Real.pi⁻¹) = false := by
    rw [Bool.eq_false_iff]
    intro hb
    exact hne ((Gate.beq_iff_eq _ _).mp hb)
  refine ⟨?_, ?_, ?_⟩
  · intro gs i g j hq h1
    have hmem := mem_of_qubitIndexToGateAndIndex hq
    obtain ⟨pre1, post1, hgs1, hnot1, hfind⟩ := findIdx_beq_first gs g hmem
    refine ⟨pre1, post1, hgs1, hnot1, ?_⟩
    rw [pgKey]
    split
    · rename_i heq
      rw [heq] at hq
      exact absurd hq (by simp)
    · rename_i g3 j3 heq
      rw [hq] at heq
      obtain ⟨rfl, rfl⟩ : g = g3 ∧ j = j3 := by simpa using heq
      rw [if_pos h1, hfind, hgs1, List.take_left]
  · rw [hg1]
    constructor <;>
      simp [pgKey, qubitIndexToGateAndIndex, Gate.numQubits, numQubitsList,
        List.findIdx_cons, haa]
  · rw [hg1, hg2]
    constructor <;>
      simp [pgKey, qubitIndexToGateAndIndex, Gate.numQubits, numQubitsList,
        List.findIdx_cons, haa, hbb, hab]

/-- Witness for C1: the general part applied to
`ParallelGates(Rphi(0,1), Rphi(0,1))` at global index 1 over ℝ. -/
theorem pgKey_single_qubit_spec_witness :
    (qubitIndexToGateAndIndex [Rphi Real.pi 0 1, Rphi Real.pi 0 1] 1 =
        some (Rphi Real.pi 0 1, 0) ∧ (Rphi Real.pi 0 1).numQubits = 1) ∧
    ∃ pre post, [Rphi Real.pi 0 1, Rphi Real.pi 0 1] = pre ++ Rphi Real.pi 0 1 :: post ∧
      (∀ x ∈ pre, x ≠ Rphi Real.pi 0 1) ∧
      pgKey [Rphi Real.pi 0 1, Rphi Real.pi 0 1] 1 = some (numQubitsList pre) := by
  have hscan : qubitIndexToGateAndIndex [Rphi Real.pi 0 1, Rphi Real.pi 0 1] 1 =
      some (Rphi Real.pi 0 1, 0) := by
    simp [qubitIndexToGateAndIndex, Rphi, phasedXPow, Gate.numQubits]
  exact ⟨⟨hscan, rfl⟩,
    pgKey_single_qubit_spec.1 [Rphi Real.pi 0 1, Rphi Real.pi 0 1] 1 _ 0 hscan rfl⟩

end CirqSuperstaq
